import Mathlib

/-!
Verification development for the `lmdb-graph` (gremlite) property-graph store.

The definitions below are a shallow embedding of the Rust sources under
`src/gremlite/src/`.  The six LMDB sub-databases are modelled as association
lists with unique keys (an LMDB database is a map from byte keys to byte
values; entry order is abstracted away, since no verified claim depends on
the physical key order).  Machine integers are modelled as `Nat`/`Int`;
byte strings as `List Nat` with every element `< 256`.  Fallible Rust code
returns `Except`/`Option`; a Rust panic (`unwrap`/`todo!` on an error path)
is modelled by the distinguished `Outcome.panic` value where a claim is
about panicking behaviour.
-/

namespace Gremlite

/-- Entity kind tag, `Type` in `src/gremlite/src/graph/mod.rs` (the Rust
name `Type` is a Lean keyword, hence `Ty`).  Variants in declaration order:
`Vertex`, `Edge`, `Parameter`. -/
inductive Ty : Type where
  | vertex
  | edge
  | parameter
deriving DecidableEq, Repr

/-- Postcard serialises a fieldless enum as a varint of its discriminant;
for the three variants of `Type` this is the single byte 0, 1 or 2.  The
same ranking realises the derived `Ord` of `Type`. -/
def Ty.tag : Ty → Nat
  | .vertex => 0
  | .edge => 1
  | .parameter => 2

/-- An identifier, `Id(Type, Ulid)` in `graph/mod.rs`.  The 128-bit ULID is
modelled as a `Nat`; the generator only produces values below `2^128`, and
the codec theorems carry that bound explicitly. -/
structure Id : Type where
  ty : Ty
  ulid : Nat
deriving DecidableEq, Repr

/-- Sentinel `Id::nil(t)`: ULID 0 (`graph/mod.rs:48-50`). -/
def Id.nil (t : Ty) : Id := ⟨t, 0⟩

/-- Sentinel `Id::max(t)`: ULID `u128::MAX` (`graph/mod.rs:52-54`). -/
def Id.max (t : Ty) : Id := ⟨t, 2 ^ 128 - 1⟩

/-- The derived `Ord` on `Id(Type, Ulid)` is lexicographic: kind tag
first, then the ULID value (strict order, as a boolean so that concrete
scans evaluate). -/
def Id.ltB (a b : Id) : Bool :=
  decide (a.ty.tag < b.ty.tag) ||
    (decide (a.ty.tag = b.ty.tag) && decide (a.ulid < b.ulid))

/-- Non-strict companion of `Id.ltB`. -/
def Id.leB (a b : Id) : Bool :=
  decide (a.ty.tag < b.ty.tag) ||
    (decide (a.ty.tag = b.ty.tag) && decide (a.ulid ≤ b.ulid))

/-- The polymorphic value sum `PValue<V, E, P>` from `graph/parameter.rs`.
Rust's `PValue::Vertex(Vertex)` / `PValue::Edge(Edge)` hold a whole record;
here the record fields are inlined into the constructor (an isomorphic
presentation that avoids a mutual inductive; `Vertex.to_pvalue` /
`Edge.to_pvalue` below mediate).  Payload conventions: `Ulid` as `Nat`,
`F32`/`F64` as their raw bit patterns (no claim computes with floats),
`Date` as its nanosecond timestamp, `Map` as an association list (the Rust
`HashMap` is unordered with unique keys). -/
inductive PValue (V E P : Type) : Type where
  | pnone
  | pvertex (id : Option Id) (label : V) (parameters : List (P × PValue V E P))
  | pedge (id : Option Id) (toId : Id) (fromId : Id) (label : E)
      (parameters : List (P × PValue V E P))
  | pid (i : Id)
  | pulid (u : Nat)
  | ptype (t : Ty)
  | pi32 (n : Int)
  | pi64 (n : Int)
  | pi128 (n : Int)
  | pfloat (bits : Nat)
  | pdouble (bits : Nat)
  | pdate (ns : Int)
  | ptoken (s : String)
  | pstring (s : String)
  | pbool (b : Bool)
  | plist (l : List (PValue V E P))
  | pset (l : List (PValue V E P))
  | pmap (m : List (P × PValue V E P))

/-- `Vertex<V, E, P>` from `graph/vertex.rs:12-25`: optional id, mandatory
label, parameter map (modelled as an association list). -/
structure Vertex (V E P : Type) : Type where
  id : Option Id
  label : V
  parameters : List (P × PValue V E P)

/-- `Edge<V, E, P>` from `graph/edge.rs:47-62`.  The Rust fields `to` and
`from` are `toId`/`fromId` here (`from` is a Lean keyword). -/
structure Edge (V E P : Type) : Type where
  id : Option Id
  toId : Id
  fromId : Id
  label : E
  parameters : List (P × PValue V E P)

/-- The error sum from `src/gremlite/src/error.rs`.  `InvalidPValue` holds
`format!("{:#?}", v)` in Rust; the model carries the offending `PValue`
itself, as no claim inspects the formatted string (hence the `V E P`
parameters).  `BadRequest` is constructed by `gremlin/executor.rs:108-109`
(the variant is listed in the spec's taxonomy; the checked-in `error.rs`
revision is missing it, one of several non-compiling spots of this
snapshot). -/
inductive Error (V E P : Type) : Type where
  | NotFound (i : Id)
  | ValueNotFound
  | VertexInvalid
  | EmptyTraversal
  | Postcard
  | Ulid
  | IoError
  | UlidOverflow
  | Heed
  | BadWrite
  | TimedOut (ms : Nat)
  | Busy
  | InvalidPValue (pv : PValue V E P)
  | BadRequest (s : String)

/-- `Vertex::new(label)` (`graph/vertex.rs:33-39`). -/
def Vertex.new (label : V) : Vertex V E P := ⟨none, label, []⟩

/-- `ToPValue for Vertex` (`graph/vertex.rs:99-108`). -/
def Vertex.to_pvalue (v : Vertex V E P) : PValue V E P :=
  .pvertex v.id v.label v.parameters

/-- `FromPValue for Vertex` (`graph/vertex.rs:85-97`): projects the
`Vertex` variant, any other tag is `InvalidPValue`. -/
def Vertex.from_pvalue : PValue V E P → Except (Error V E P) (Vertex V E P)
  | .pvertex i l ps => .ok ⟨i, l, ps⟩
  | pv => .error (.InvalidPValue pv)

/-- `ToPValue for Edge` (`graph/edge.rs:107-116`). -/
def Edge.to_pvalue (e : Edge V E P) : PValue V E P :=
  .pedge e.id e.toId e.fromId e.label e.parameters

/-- `FromPValue for Edge` (`graph/edge.rs:93-105`). -/
def Edge.from_pvalue : PValue V E P → Except (Error V E P) (Edge V E P)
  | .pedge i t f l ps => .ok ⟨i, t, f, l, ps⟩
  | pv => .error (.InvalidPValue pv)

/-- `FromPValue for PValue` is the identity (`graph/parameter.rs:106-115`). -/
def PValue.from_pvalue (pv : PValue V E P) : Except (Error V E P) (PValue V E P) :=
  .ok pv

/-! ## LMDB databases as association lists

`heed::Database<K, V>` over LMDB is a map from (encoded) keys to values.
`dbPut` is LMDB put (overwrite an existing key in place, else append),
`dbDelete` removes the entry of a key, `dbGet` is point lookup, `clear`
empties the database.  Keys stay unique whenever they start unique. -/

/-- LMDB `Database::put`: replace the value of an existing key, otherwise
append the new entry. -/
def dbPut [DecidableEq κ] (k : κ) (v : α) : List (κ × α) → List (κ × α)
  | [] => [(k, v)]
  | (k', v') :: rest => if k = k' then (k, v) :: rest else (k', v') :: dbPut k v rest

/-- LMDB `Database::get`: first (and with unique keys, only) value bound
to the key. -/
def dbGet [DecidableEq κ] (k : κ) : List (κ × α) → Option α
  | [] => none
  | (k', v) :: rest => if k = k' then some v else dbGet k rest

/-- LMDB `Database::delete`: drop the entry of the key (at most one entry
exists under key uniqueness). -/
def dbDelete [DecidableEq κ] (k : κ) : List (κ × α) → List (κ × α)
  | [] => []
  | (k', v) :: rest => if k = k' then rest else (k', v) :: dbDelete k rest

theorem dbGet_put_self [DecidableEq κ] (k : κ) (v : α) (l : List (κ × α)) :
    dbGet k (dbPut k v l) = some v := by
  induction l with
  | nil => simp [dbPut, dbGet]
  | cons hd tl ih =>
    by_cases h : k = hd.1
    · simp [dbPut, dbGet, h]
    · simp [dbPut, dbGet, h, ih]

theorem dbGet_put_ne [DecidableEq κ] (k k' : κ) (v : α) (l : List (κ × α))
    (h : k' ≠ k) : dbGet k' (dbPut k v l) = dbGet k' l := by
  induction l with
  | nil => simp [dbPut, dbGet, h]
  | cons hd tl ih =>
    by_cases hk : k = hd.1
    · subst hk
      simp [dbPut, dbGet, h, ih]
    · by_cases hk' : k' = hd.1
      · simp [dbPut, dbGet, hk, hk']
      · simp [dbPut, dbGet, hk, hk', ih]

theorem dbGet_eq_none_of_not_mem [DecidableEq κ] (k : κ) (l : List (κ × α))
    (h : k ∉ l.map Prod.fst) : dbGet k l = none := by
  induction l with
  | nil => simp [dbGet]
  | cons hd tl ih =>
    simp only [List.map_cons, List.mem_cons, not_or] at h
    simp [dbGet, h.1, ih h.2]

theorem dbGet_delete_self [DecidableEq κ] (k : κ) (l : List (κ × α))
    (hnd : (l.map Prod.fst).Nodup) : dbGet k (dbDelete k l) = none := by
  induction l with
  | nil => simp [dbDelete, dbGet]
  | cons hd tl ih =>
    simp only [List.map_cons, List.nodup_cons] at hnd
    by_cases h : k = hd.1
    · subst h
      simp only [dbDelete, if_pos rfl]
      exact dbGet_eq_none_of_not_mem _ _ hnd.1
    · simp [dbDelete, dbGet, h, ih hnd.2]

theorem dbGet_delete_ne [DecidableEq κ] (k k' : κ) (l : List (κ × α))
    (h : k' ≠ k) : dbGet k' (dbDelete k l) = dbGet k' l := by
  induction l with
  | nil => simp [dbDelete, dbGet]
  | cons hd tl ih =>
    by_cases hk : k = hd.1
    · subst hk
      simp [dbDelete, dbGet, h]
    · by_cases hk' : k' = hd.1
      · simp [dbDelete, dbGet, hk, hk']
      · simp [dbDelete, dbGet, hk, hk', ih]

/-! ## Label-index keys and range scans

`LabelId<Label>(Label, Id)` (`heed/mod.rs:19-45`) is the composite key of
the two label indexes.  LMDB iterates and bounds ranges by the order of
the encoded key bytes; the codec contract (spec §4.2(c)) requires that
order to be label-lexicographic, so the model uses the logical
lexicographic order: label first, then id.  A label type provides its
order through `KeyOrd`. -/

/-- Strict order on a label type, as used for sorting index keys. -/
class KeyOrd (L : Type) : Type where
  ltB : L → L → Bool

/-- Character-wise lexicographic order on strings (the order of `String`
label keys). -/
def strLtB : List Char → List Char → Bool
  | [], [] => false
  | [], _ :: _ => true
  | _ :: _, [] => false
  | a :: as, b :: bs =>
    if a.toNat < b.toNat then true
    else if b.toNat < a.toNat then false
    else strLtB as bs

instance : KeyOrd String := ⟨fun a b => strLtB a.data b.data⟩

instance : KeyOrd Nat := ⟨fun a b => decide (a < b)⟩

instance : KeyOrd Unit := ⟨fun _ _ => false⟩

/-- Composite label-index key `LabelId(Label, Id)`. -/
abbrev LabelId (L : Type) : Type := L × Id

/-- Non-strict key order on `LabelId`: label first, then id. -/
def labelIdLeB [KeyOrd L] [DecidableEq L] (a b : LabelId L) : Bool :=
  KeyOrd.ltB a.1 b.1 || (decide (a.1 = b.1) && Id.leB a.2 b.2)

/-- Strict key order on `LabelId`. -/
def labelIdLtB [KeyOrd L] [DecidableEq L] (a b : LabelId L) : Bool :=
  KeyOrd.ltB a.1 b.1 || (decide (a.1 = b.1) && Id.ltB a.2 b.2)

/-- `Database::range(txn, range)`: the entries whose key lies between the
bounds; `hiIncl` says whether the upper bound is inclusive (Rust `..=`)
or exclusive (Rust `..`).  The lower bound is always inclusive. -/
def rangeScan [KeyOrd L] [DecidableEq L] (db : List (LabelId L × Id))
    (lo hi : LabelId L) (hiIncl : Bool) : List (LabelId L × Id) :=
  db.filter fun e =>
    labelIdLeB lo e.1 &&
      (if hiIncl then labelIdLeB e.1 hi else labelIdLtB e.1 hi)

/-! ## The graph store

`Graph<V, E, P>` (`heed/mod.rs:100-118`) holds the six sub-databases
(`vertices:v1`, `vertices_idx:v1`, `edges:v1`, `edges_idx:v1`,
`parameters:v1`, `parameters_idx:v1`) and the ULID generator.  The
generator is modelled as a strictly increasing counter starting above the
`nil` sentinel; its per-millisecond overflow failure (`UlidOverflow`) is
not modelled. -/

structure Graph (V E P : Type) : Type where
  vertex_db : List (Id × Vertex V E P)
  vertex_idx_db : List (LabelId V × Id)
  edge_db : List (Id × Edge V E P)
  edge_idx_db : List (LabelId E × Id)
  parameters_db : List ((Id × P) × PValue V E P)
  parameters_idx_db : List ((P × Id) × Id)
  counter : Nat

/-- `Graph::new` on a fresh directory: all six sub-databases empty
(`heed/mod.rs:138-163`). -/
def Graph.new : Graph V E P := ⟨[], [], [], [], [], [], 0⟩

/-- `Id::new(t, generator)` (`graph/mod.rs:44-46`): the monotonic ULID
generator, modelled as `counter + 1` so every generated ULID is positive
(the `nil` sentinel is never produced) and strictly increasing. -/
def genId (t : Ty) (counter : Nat) : Id × Nat := (⟨t, counter + 1⟩, counter + 1)

/-- The parameter-upsert loop shared by `put_vertex`
(`heed/vertex.rs:34-41`) and `put_edge` (`heed/edge.rs:35-42`): for each
`(k, v)` in the entity's parameters, upsert `parameters:v1` at `(id, k)`
and `parameters_idx:v1` at `(k, id)`. -/
def putParams [DecidableEq P] (i : Id) (ps : List (P × PValue V E P))
    (g : Graph V E P) : Graph V E P :=
  ps.foldl
    (fun g kv =>
      { g with
        parameters_db := dbPut (i, kv.1) kv.2 g.parameters_db
        parameters_idx_db := dbPut (kv.1, i) i g.parameters_idx_db })
    g

/-- `Graph::put_vertex` (`heed/vertex.rs:16-44`).  If the vertex carries an
id and a record is stored under it, the stored record's label-index entry
`(stored.label, stored.id.unwrap())` is deleted first (the source unwraps
the stored record's own id; stored records always carry one, and the
unwrap is modelled by `Option.getD`).  Otherwise a fresh id is generated.
Then the payload, the `(label, id) → id` index entry, and the parameters
are written. -/
def Graph.put_vertex [DecidableEq V] [DecidableEq P] (g : Graph V E P)
    (n : Vertex V E P) : Vertex V E P × Graph V E P :=
  let step1 : (Vertex V E P × Id) × Graph V E P :=
    match n.id with
    | some i =>
      let g :=
        match dbGet i g.vertex_db with
        | some vertex =>
          { g with vertex_idx_db :=
              dbDelete (vertex.label, vertex.id.getD (Id.nil .vertex)) g.vertex_idx_db }
        | none => g
      ((n, i), g)
    | none =>
      let (i, c) := genId .vertex g.counter
      (({ n with id := some i }, i), { g with counter := c })
  let n := step1.1.1
  let i := step1.1.2
  let g := step1.2
  let g := { g with vertex_db := dbPut i n g.vertex_db }
  let g := { g with vertex_idx_db := dbPut (n.label, i) i g.vertex_idx_db }
  (n, putParams i n.parameters g)

/-- `Graph::put_edge` (`heed/edge.rs:17-45`), symmetric to `put_vertex`
except that the stale index entry is keyed by `(stored.label,
argument.id.unwrap())` (the source uses the argument's id there). -/
def Graph.put_edge [DecidableEq E] [DecidableEq P] (g : Graph V E P)
    (edge : Edge V E P) : Edge V E P × Graph V E P :=
  let step1 : (Edge V E P × Id) × Graph V E P :=
    match edge.id with
    | some i =>
      let g :=
        match dbGet i g.edge_db with
        | some e => { g with edge_idx_db := dbDelete (e.label, i) g.edge_idx_db }
        | none => g
      ((edge, i), g)
    | none =>
      let (i, c) := genId .edge g.counter
      (({ edge with id := some i }, i), { g with counter := c })
  let e := step1.1.1
  let i := step1.1.2
  let g := step1.2
  let g := { g with edge_db := dbPut i e g.edge_db }
  let g := { g with edge_idx_db := dbPut (e.label, i) i g.edge_idx_db }
  (e, putParams i e.parameters g)

/-- `Graph::get_vertex_by_id` (`heed/vertex.rs:46-49`): primary-store
point lookup. -/
def Graph.get_vertex_by_id (g : Graph V E P) (i : Id) : Option (Vertex V E P) :=
  dbGet i g.vertex_db

/-- `Graph::get_edge_by_id` (`heed/edge.rs:47-50`). -/
def Graph.get_edge_by_id (g : Graph V E P) (i : Id) : Option (Edge V E P) :=
  dbGet i g.edge_db

/-- `Graph::get_vertices_by_ids` (`heed/vertex.rs:51-65`): point lookups in
input order, missing ids skipped silently, wrapped as `PValue::Vertex`. -/
def Graph.get_vertices_by_ids (g : Graph V E P) (ids : List Id) :
    List (PValue V E P) :=
  (ids.filterMap fun i => dbGet i g.vertex_db).map Vertex.to_pvalue

/-- `Graph::get_edges_by_ids` (`heed/edge.rs:52-66`). -/
def Graph.get_edges_by_ids (g : Graph V E P) (ids : List Id) :
    List (PValue V E P) :=
  (ids.filterMap fun i => dbGet i g.edge_db).map Edge.to_pvalue

/-- `Graph::vertices` (`heed/vertex.rs:100-107`): full scan of the primary
vertex store.  `VertexIter::next` maps each record to `PValue::Vertex`;
its decode-failure arm cannot fire in the typed model. -/
def Graph.vertices (g : Graph V E P) : List (PValue V E P) :=
  g.vertex_db.map fun e => e.2.to_pvalue

/-- `Graph::edges` (`heed/edge.rs:98-105`). -/
def Graph.edges (g : Graph V E P) : List (PValue V E P) :=
  g.edge_db.map fun e => e.2.to_pvalue

/-- The collected yield of `VertexRange::next` (`heed/vertex.rs:168-184`).
The input list models the raw index-range iterator: `none` is an entry
whose bytes fail to decode (`Some(Err(_))` in the source), `some i` an
entry that decoded to id `i`.  A decode failure or an id with no record in
the primary store returns `None` from `next`, ending iteration with no
error; everything after it is never yielded. -/
def vertexRangeCollect (g : Graph V E P) : List (Option Id) → List (Vertex V E P)
  | [] => []
  | .none :: _ => []
  | .some i :: rest =>
    match dbGet i g.vertex_db with
    | some v => v :: vertexRangeCollect g rest
    | none => []

/-- The collected yield of `EdgeRange::next` (`heed/edge.rs:147-163`),
same shape as `vertexRangeCollect`. -/
def edgeRangeCollect (g : Graph V E P) : List (Option Id) → List (Edge V E P)
  | [] => []
  | .none :: _ => []
  | .some i :: rest =>
    match dbGet i g.edge_db with
    | some e => e :: edgeRangeCollect g rest
    | none => []

/-- `Graph::get_vertices_by_label` (`heed/vertex.rs:67-81`): range scan of
`vertices_idx:v1` over `LabelId(label, nil) ..= LabelId(label, max)` (both
bounds INCLUSIVE, Rust `..=`), hydrating each yielded id through
`VertexRange`. -/
def Graph.get_vertices_by_label [KeyOrd V] [DecidableEq V] (g : Graph V E P) (label : V) :
    List (Vertex V E P) :=
  vertexRangeCollect g
    ((rangeScan g.vertex_idx_db (label, Id.nil .vertex) (label, Id.max .vertex)
        true).map fun e => some e.2)

/-- `Graph::get_edges_by_label` (`heed/edge.rs:68-80`): range scan of
`edges_idx:v1` over `LabelId(label, nil) .. LabelId(label, max)` — note
the Rust `..`: the upper bound is EXCLUSIVE here, unlike the vertex
version. -/
def Graph.get_edges_by_label [KeyOrd E] [DecidableEq E] (g : Graph V E P) (label : E) :
    List (Edge V E P) :=
  edgeRangeCollect g
    ((rangeScan g.edge_idx_db (label, Id.nil .edge) (label, Id.max .edge)
        false).map fun e => some e.2)

/-- `Graph::get_vertex_by_label` (`heed/vertex.rs:83-92`): first element
of the label range. -/
def Graph.get_vertex_by_label [KeyOrd V] [DecidableEq V] (g : Graph V E P) (label : V) :
    Option (Vertex V E P) :=
  (g.get_vertices_by_label label).head?

/-- `Graph::get_edge_by_label` (`heed/edge.rs:82-91`). -/
def Graph.get_edge_by_label [KeyOrd E] [DecidableEq E] (g : Graph V E P) (label : E) :
    Option (Edge V E P) :=
  (g.get_edges_by_label label).head?

/-- `Graph::vertex_count` (`heed/vertex.rs:94-98`): asserts that the
primary store and the label index have equal cardinality (the `none`
branch models the `assert_eq!` panic), then returns the primary length. -/
def Graph.vertex_count (g : Graph V E P) : Option Nat :=
  if g.vertex_db.length = g.vertex_idx_db.length then some g.vertex_db.length
  else none

/-- `Graph::edge_count` (`heed/edge.rs:93-96`). -/
def Graph.edge_count (g : Graph V E P) : Option Nat :=
  if g.edge_db.length = g.edge_idx_db.length then some g.edge_db.length
  else none

/-- `Graph::clear` (`heed/mod.rs:186-192`): the source clears exactly four
sub-databases — `vertex_db`, `vertex_idx_db`, `edge_db`, `edge_idx_db`.
`parameters_db` and `parameters_idx_db` are NOT touched. -/
def Graph.clear (g : Graph V E P) : Graph V E P :=
  { g with vertex_db := [], vertex_idx_db := [], edge_db := [], edge_idx_db := [] }

/-! ## Traversal machine

Bytecode IR (`gremlin/bytecode.rs`), executor (`gremlin/executor.rs`) and
terminator (`gremlin/terminator.rs`).  `Ids` is modelled as `List Id`. -/

/-- `Instruction<V, E, P>` (`gremlin/bytecode.rs:56-69`). -/
inductive Instruction (V E P : Type) : Type where
  | Vert (ids : List Id)
  | Edge (ids : List Id)
  | AddV (label : V)
  | AddE (label : E)
  | Property (p : P) (v : PValue V E P)
  | From (i : Id)
  | To (i : Id)

/-- `Bytecode<V, E, P>` (`gremlin/bytecode.rs:4-13`): a pair of
instruction deques; `sources` is reserved and never consumed. -/
structure Bytecode (V E P : Type) : Type where
  sources : List (Instruction V E P)
  steps : List (Instruction V E P)

/-- Outcome of running executor/terminator code: a value, an error
surfaced by value, or a Rust panic (`unwrap` on an `Err`, `todo!`). -/
inductive Outcome (V E P α : Type) : Type where
  | ok (a : α)
  | err (e : Error V E P)
  | panic

/-- The scanning loop of `WriteExecutor::pop_to_from`
(`gremlin/executor.rs:86-102`): fold over the enumerated steps, recording
the last `To` id, the last `From` id, and the indices of every `From`/`To`
in encounter order. -/
def scanToFrom (steps : List (Instruction V E P)) :
    Option Id × Option Id × List Nat :=
  steps.enum.foldl
    (fun acc p =>
      match p.2 with
      | .From i => (acc.1, some i, acc.2.2 ++ [p.1])
      | .To i => (some i, acc.2.1, acc.2.2 ++ [p.1])
      | _ => acc)
    ((none : Option Id), (none : Option Id), ([] : List Nat))

/-- `WriteExecutor::pop_to_from` (`gremlin/executor.rs:85-111`): scan for
the `From`/`To` tags, then run `steps.remove(idx)` for each recorded index
in order.  `VecDeque::remove` on an out-of-range index is a no-op
returning `None`, which is exactly `List.eraseIdx`; the recorded indices
are positions in the ORIGINAL deque, so the earlier removals shift the
later ones (the source performs no index adjustment).  Finally `Missing
to` / `Missing from` is raised if a tag was absent (`to` is checked
first). -/
def popToFrom (steps : List (Instruction V E P)) :
    Except (Error V E P) (Id × Id × List (Instruction V E P)) :=
  let scanned := scanToFrom steps
  let toI := scanned.1
  let fromI := scanned.2.1
  let dels := scanned.2.2
  let steps := dels.foldl (fun s idx => s.eraseIdx idx) steps
  match toI with
  | none => .error (.BadRequest "Missing to")
  | some t =>
    match fromI with
    | none => .error (.BadRequest "Missing from")
    | some f => .ok (t, f, steps)

/-- `WriteExecutor::execute` (`gremlin/executor.rs:40-83`): clone the step
deque, pop the head (empty deque gives the empty stream) and dispatch on
it; the remaining steps are used only by the `AddE` arm's `pop_to_from`
sideband and are otherwise dropped.  The `AddE` arm constructs
`{id: None, to, from, label, parameters: {}}` and inserts it (the source
writes `Edge::new(to, from, label)?`; both endpoint ids are present, so
the construction cannot fail).  A head of any other instruction hits the
source's `todo!()` and panics. -/
def Graph.execute [DecidableEq V] [DecidableEq E] [DecidableEq P]
    (g : Graph V E P) (bytecode : Bytecode V E P) :
    Outcome V E P (List (PValue V E P) × Graph V E P) :=
  match bytecode.steps with
  | [] => .ok ([], g)
  | head :: steps =>
    match head with
    | .Vert ids =>
      if ids.isEmpty then .ok (g.vertices, g)
      else .ok (g.get_vertices_by_ids ids, g)
    | .Edge ids =>
      if ids.isEmpty then .ok (g.edges, g)
      else .ok (g.get_edges_by_ids ids, g)
    | .AddV label =>
      let r := g.put_vertex (Vertex.new label)
      .ok ([r.1.to_pvalue], r.2)
    | .AddE label =>
      match popToFrom steps with
      | .error e => .err e
      | .ok (t, f, _rest) =>
        let r := g.put_edge ⟨none, t, f, label, []⟩
        .ok ([r.1.to_pvalue], r.2)
    | _ => .panic

/-- The mapping stage of `TraversalTerminator::to_list`
(`gremlin/terminator.rs:99-103`): `.map(End::from_pvalue)
.map(Result::unwrap).collect()`.  `Result::unwrap` PANICS at the first
element whose conversion fails; `none` models that panic. -/
def mapUnwrap (f : PValue V E P → Except (Error V E P) End) :
    List (PValue V E P) → Option (List End)
  | [] => some []
  | pv :: rest =>
    match f pv with
    | .error _ => none
    | .ok e => (mapUnwrap f rest).map (e :: ·)

/-- `TraversalTerminator::to_list` (`gremlin/terminator.rs:90-104`):
execute the bytecode (errors from `execute` propagate by value through
`?`), then eagerly collect the stream through `End::from_pvalue` with
`Result::unwrap`.  `f` is the end type's `from_pvalue`. -/
def Graph.to_list [DecidableEq V] [DecidableEq E] [DecidableEq P]
    (g : Graph V E P) (f : PValue V E P → Except (Error V E P) End)
    (bytecode : Bytecode V E P) : Outcome V E P (List End × Graph V E P) :=
  match g.execute bytecode with
  | .panic => .panic
  | .err e => .err e
  | .ok (stream, g) =>
    match mapUnwrap f stream with
    | none => .panic
    | some l => .ok (l, g)

/-- Modelled from the spec: `Terminator::next` is commented out in
`gremlin/terminator.rs:106-119` (its caller `GraphTraversal::next`,
`gremlin/mod.rs:145-151`, survives but no longer compiles).  Per the spec
— `next(txn, bytecode)` returns the first element of the executed stream
as `End`, failing with `EmptyTraversal` on an empty stream — and in
agreement with the commented implementation: execute, take the first
element, convert it through `End::from_pvalue` (the conversion's own
error is returned by value), or `EmptyTraversal` if there is none. -/
def Graph.next [DecidableEq V] [DecidableEq E] [DecidableEq P]
    (g : Graph V E P) (f : PValue V E P → Except (Error V E P) End)
    (bytecode : Bytecode V E P) : Outcome V E P (End × Graph V E P) :=
  match g.execute bytecode with
  | .panic => .panic
  | .err e => .err e
  | .ok (stream, g) =>
    match stream with
    | [] => .err .EmptyTraversal
    | pv :: _ =>
      match f pv with
      | .ok e => .ok (e, g)
      | .error er => .err er

/-! ## Id codec

`Id::bytes_encode` / `Id::bytes_decode` (`graph/mod.rs:78-103`).  The
encoder runs postcard over the pair `(Type, ulid.to_be_bytes())`: postcard
writes a fieldless enum as one discriminant byte and a `[u8; 16]` as its
16 bytes verbatim, so the layout is one kind-tag byte followed by the
16 big-endian ULID bytes. -/

/-- Big-endian base-256 digits: `beBytes k n` is the low `k` bytes of `n`,
most significant first (`u128::to_be_bytes` with `k = 16`). -/
def beBytes : Nat → Nat → List Nat
  | 0, _ => []
  | k + 1, n => beBytes k (n / 256) ++ [n % 256]

/-- `u128::from_be_bytes`. -/
def fromBeBytes (bs : List Nat) : Nat := bs.foldl (fun a b => a * 256 + b) 0

/-- Postcard deserialisation of `Type` from its discriminant byte
(`from_bytes(&bytes[0..1])` in `Id::bytes_decode`; the source unwraps the
result, panicking on a byte other than 0, 1, 2 — modelled as `none`). -/
def tyFromByte : Nat → Option Ty
  | 0 => some .vertex
  | 1 => some .edge
  | 2 => some .parameter
  | _ => none

/-- `Id::bytes_encode` (`graph/mod.rs:78-86`). -/
def Id.bytes_encode (i : Id) : List Nat := i.ty.tag :: beBytes 16 i.ulid

/-- `Id::bytes_decode` (`graph/mod.rs:88-103`): reject unless exactly 17
bytes, read the kind tag from byte 0, the big-endian ULID from bytes
1..17. -/
def Id.bytes_decode (bytes : List Nat) : Option Id :=
  if bytes.length ≠ 17 then none
  else
    match tyFromByte (bytes.headD 0) with
    | none => none
    | some t => some ⟨t, fromBeBytes (bytes.drop 1)⟩

/-! ## Operation sequences

For the quantified invariants (claim C2-style) we close the storage API
under sequences of `put_vertex`/`put_edge` calls starting from a fresh
graph. -/

/-- One mutating façade call. -/
inductive Op (V E P : Type) : Type where
  | putV (n : Vertex V E P)
  | putE (e : Edge V E P)

/-- Run a sequence of put calls left to right. -/
def applyOps [DecidableEq V] [DecidableEq E] [DecidableEq P]
    (g : Graph V E P) : List (Op V E P) → Graph V E P
  | [] => g
  | .putV n :: rest => applyOps (g.put_vertex n).2 rest
  | .putE e :: rest => applyOps (g.put_edge e).2 rest

/-! ## Association-list lemmas -/

theorem dbGet_mem [DecidableEq κ] {k : κ} {v : α} {l : List (κ × α)}
    (h : dbGet k l = some v) : (k, v) ∈ l := by
  induction l with
  | nil => simp [dbGet] at h
  | cons hd tl ih =>
    obtain ⟨k1, v1⟩ := hd
    by_cases hk : k = k1
    · rw [dbGet, if_pos hk] at h
      rw [hk, (Option.some.injEq _ _).mp h]
      exact List.mem_cons_self _ _
    · rw [dbGet, if_neg hk] at h
      exact List.mem_cons_of_mem _ (ih h)

theorem dbGet_of_mem_nodup [DecidableEq κ] {k : κ} {v : α} {l : List (κ × α)}
    (hnd : (l.map Prod.fst).Nodup) (h : (k, v) ∈ l) : dbGet k l = some v := by
  induction l with
  | nil => simp at h
  | cons hd tl ih =>
    obtain ⟨k1, v1⟩ := hd
    simp only [List.map_cons, List.nodup_cons] at hnd
    rcases List.mem_cons.mp h with h | h
    · rw [dbGet, if_pos (congrArg Prod.fst h), Prod.mk.injEq] at *
      exact congrArg some h.2.symm
    · have hk : k ≠ k1 := by
        intro hc
        exact hnd.1 (List.mem_map.mpr ⟨(k, v), h, hc⟩)
      rw [dbGet, if_neg hk]
      exact ih hnd.2 h

theorem mem_keys_dbPut [DecidableEq κ] {a k : κ} {v : α} {l : List (κ × α)}
    (h : a ∈ (dbPut k v l).map Prod.fst) : a = k ∨ a ∈ l.map Prod.fst := by
  induction l with
  | nil => simpa [dbPut] using h
  | cons hd tl ih =>
    obtain ⟨k1, v1⟩ := hd
    by_cases hk : k = k1
    · rw [dbPut, if_pos hk] at h
      simp only [List.map_cons, List.mem_cons] at h ⊢
      rcases h with h | h
      · exact Or.inl h
      · exact Or.inr (Or.inr h)
    · rw [dbPut, if_neg hk] at h
      simp only [List.map_cons, List.mem_cons] at h ⊢
      rcases h with h | h
      · exact Or.inr (Or.inl h)
      · rcases ih h with h | h
        · exact Or.inl h
        · exact Or.inr (Or.inr h)

theorem keys_dbPut_nodup [DecidableEq κ] {k : κ} {v : α} {l : List (κ × α)}
    (hnd : (l.map Prod.fst).Nodup) : ((dbPut k v l).map Prod.fst).Nodup := by
  induction l with
  | nil => simp [dbPut]
  | cons hd tl ih =>
    obtain ⟨k1, v1⟩ := hd
    simp only [List.map_cons, List.nodup_cons] at hnd
    by_cases hk : k = k1
    · rw [dbPut, if_pos hk]
      simp only [List.map_cons, List.nodup_cons]
      exact ⟨hk ▸ hnd.1, hnd.2⟩
    · rw [dbPut, if_neg hk]
      simp only [List.map_cons, List.nodup_cons]
      refine ⟨fun hc => ?_, ih hnd.2⟩
      rcases mem_keys_dbPut hc with hc | hc
      · exact hk hc.symm
      · exact hnd.1 hc

theorem mem_dbPut [DecidableEq κ] {p : κ × α} {k : κ} {v : α} {l : List (κ × α)}
    (hnd : (l.map Prod.fst).Nodup) (h : p ∈ dbPut k v l) :
    p = (k, v) ∨ (p.1 ≠ k ∧ p ∈ l) := by
  induction l with
  | nil => simpa [dbPut] using h
  | cons hd tl ih =>
    obtain ⟨k1, v1⟩ := hd
    simp only [List.map_cons, List.nodup_cons] at hnd
    by_cases hk : k = k1
    · rw [dbPut, if_pos hk] at h
      rcases List.mem_cons.mp h with h | h
      · exact Or.inl h
      · refine Or.inr ⟨fun hc => hnd.1 (List.mem_map.mpr ⟨p, h, hc.trans hk⟩),
          List.mem_cons_of_mem _ h⟩
    · rw [dbPut, if_neg hk] at h
      rcases List.mem_cons.mp h with h | h
      · refine Or.inr ⟨?_, h ▸ List.mem_cons_self _ _⟩
        rw [h]
        exact fun hc => hk hc.symm
      · rcases ih hnd.2 h with h | h
        · exact Or.inl h
        · exact Or.inr ⟨h.1, List.mem_cons_of_mem _ h.2⟩

theorem self_mem_dbPut [DecidableEq κ] (k : κ) (v : α) (l : List (κ × α)) :
    (k, v) ∈ dbPut k v l := by
  induction l with
  | nil => simp [dbPut]
  | cons hd tl ih =>
    obtain ⟨k1, v1⟩ := hd
    by_cases hk : k = k1
    · rw [dbPut, if_pos hk]
      exact List.mem_cons_self _ _
    · rw [dbPut, if_neg hk]
      exact List.mem_cons_of_mem _ ih

theorem mem_dbDelete [DecidableEq κ] {p : κ × α} {k : κ} {l : List (κ × α)}
    (h : p ∈ dbDelete k l) : p ∈ l := by
  induction l with
  | nil => simp [dbDelete] at h
  | cons hd tl ih =>
    obtain ⟨k1, v1⟩ := hd
    by_cases hk : k = k1
    · rw [dbDelete, if_pos hk] at h
      exact List.mem_cons_of_mem _ h
    · rw [dbDelete, if_neg hk] at h
      rcases List.mem_cons.mp h with h | h
      · exact h ▸ List.mem_cons_self _ _
      · exact List.mem_cons_of_mem _ (ih h)

theorem mem_dbDelete_of_ne [DecidableEq κ] {p : κ × α} {k : κ} {l : List (κ × α)}
    (hp : p ∈ l) (hne : p.1 ≠ k) : p ∈ dbDelete k l := by
  induction l with
  | nil => simp at hp
  | cons hd tl ih =>
    obtain ⟨k1, v1⟩ := hd
    by_cases hk : k = k1
    · rw [dbDelete, if_pos hk]
      rcases List.mem_cons.mp hp with h | h
      · exact absurd (by rw [h, ← hk]) hne
      · exact h
    · rw [dbDelete, if_neg hk]
      rcases List.mem_cons.mp hp with h | h
      · exact h ▸ List.mem_cons_self _ _
      · exact List.mem_cons_of_mem _ (ih h)

theorem fst_ne_of_mem_dbDelete [DecidableEq κ] {p : κ × α} {k : κ}
    {l : List (κ × α)} (hnd : (l.map Prod.fst).Nodup) (h : p ∈ dbDelete k l) :
    p.1 ≠ k := by
  induction l with
  | nil => simp [dbDelete] at h
  | cons hd tl ih =>
    obtain ⟨k1, v1⟩ := hd
    simp only [List.map_cons, List.nodup_cons] at hnd
    by_cases hk : k = k1
    · rw [dbDelete, if_pos hk] at h
      intro hc
      exact hnd.1 (List.mem_map.mpr ⟨p, h, hc.trans hk⟩)
    · rw [dbDelete, if_neg hk] at h
      rcases List.mem_cons.mp h with h | h
      · rw [h]
        exact fun hc => hk hc.symm
      · exact ih hnd.2 h

theorem keys_dbDelete_nodup [DecidableEq κ] {k : κ} {l : List (κ × α)}
    (hnd : (l.map Prod.fst).Nodup) : ((dbDelete k l).map Prod.fst).Nodup := by
  induction l with
  | nil => simp [dbDelete]
  | cons hd tl ih =>
    obtain ⟨k1, v1⟩ := hd
    simp only [List.map_cons, List.nodup_cons] at hnd
    by_cases hk : k = k1
    · rw [dbDelete, if_pos hk]
      exact hnd.2
    · rw [dbDelete, if_neg hk]
      simp only [List.map_cons, List.nodup_cons]
      refine ⟨fun hc => ?_, ih hnd.2⟩
      rcases List.mem_map.mp hc with ⟨q, hq, hfq⟩
      exact hnd.1 (List.mem_map.mpr ⟨q, mem_dbDelete hq, hfq⟩)

theorem filter_eq_singleton_of_all {l : List α} {p : α → Bool} {x : α}
    (hnd : l.Nodup) (hall : ∀ y ∈ l, p y = true → y = x) (hx : x ∈ l)
    (hpx : p x = true) : l.filter p = [x] := by
  induction l with
  | nil => simp at hx
  | cons hd tl ih =>
    rw [List.nodup_cons] at hnd
    by_cases hhd : x = hd
    · subst hhd
      simp only [List.filter_cons, hpx]
      have hnil : tl.filter p = [] := by
        rw [List.filter_eq_nil_iff]
        intro y hy hpy
        have hyx := hall y (List.mem_cons_of_mem _ hy) hpy
        exact absurd (hyx ▸ hy) hnd.1
      simp [hnil]
    · have hphd : p hd = false := by
        cases h : p hd
        · rfl
        · exact absurd (hall hd (List.mem_cons_self _ _) h).symm hhd
      simp only [List.filter_cons, hphd]
      have htl : x ∈ tl := by
        rcases List.mem_cons.mp hx with h | h
        · exact absurd h hhd
        · exact h
      exact ih hnd.2 (fun y hy hpy => hall y (List.mem_cons_of_mem _ hy) hpy) htl

/-! ## Frame lemmas: which sub-databases each operation touches -/

theorem putParams_vertex_db [DecidableEq P] (i : Id)
    (ps : List (P × PValue V E P)) (g : Graph V E P) :
    (putParams i ps g).vertex_db = g.vertex_db := by
  induction ps generalizing g with
  | nil => rfl
  | cons hd tl ih => simpa [putParams] using ih _

theorem putParams_vertex_idx_db [DecidableEq P] (i : Id)
    (ps : List (P × PValue V E P)) (g : Graph V E P) :
    (putParams i ps g).vertex_idx_db = g.vertex_idx_db := by
  induction ps generalizing g with
  | nil => rfl
  | cons hd tl ih => simpa [putParams] using ih _

theorem putParams_edge_db [DecidableEq P] (i : Id)
    (ps : List (P × PValue V E P)) (g : Graph V E P) :
    (putParams i ps g).edge_db = g.edge_db := by
  induction ps generalizing g with
  | nil => rfl
  | cons hd tl ih => simpa [putParams] using ih _

theorem putParams_edge_idx_db [DecidableEq P] (i : Id)
    (ps : List (P × PValue V E P)) (g : Graph V E P) :
    (putParams i ps g).edge_idx_db = g.edge_idx_db := by
  induction ps generalizing g with
  | nil => rfl
  | cons hd tl ih => simpa [putParams] using ih _

theorem putParams_counter [DecidableEq P] (i : Id)
    (ps : List (P × PValue V E P)) (g : Graph V E P) :
    (putParams i ps g).counter = g.counter := by
  induction ps generalizing g with
  | nil => rfl
  | cons hd tl ih => simpa [putParams] using ih _

/-! ## Codec lemmas -/

theorem beBytes_length (k n : Nat) : (beBytes k n).length = k := by
  induction k generalizing n with
  | zero => rfl
  | succ k ih => simp [beBytes, ih]

theorem beBytes_lt (k n : Nat) : ∀ b ∈ beBytes k n, b < 256 := by
  induction k generalizing n with
  | zero => simp [beBytes]
  | succ k ih =>
    intro b hb
    simp only [beBytes, List.mem_append, List.mem_singleton] at hb
    rcases hb with hb | hb
    · exact ih _ b hb
    · exact hb ▸ Nat.mod_lt _ (by norm_num)

theorem fromBeBytes_append_one (l : List Nat) (b : Nat) :
    fromBeBytes (l ++ [b]) = fromBeBytes l * 256 + b := by
  simp [fromBeBytes, List.foldl_append]

theorem fromBeBytes_beBytes (k n : Nat) :
    fromBeBytes (beBytes k n) = n % 256 ^ k := by
  induction k generalizing n with
  | zero => simp [beBytes, fromBeBytes, Nat.mod_one]
  | succ k ih =>
    rw [beBytes, fromBeBytes_append_one, ih]
    have h256 : (256 : Nat) ^ (k + 1) = 256 * 256 ^ k := by ring
    rw [h256, Nat.mod_mul]
    ring

theorem tyFromByte_tag (t : Ty) : tyFromByte t.tag = some t := by
  cases t <;> rfl

/-! ## Concrete stores used by individual claims -/

/-- A store holding one vertex that carries one parameter (reached by a
single `put_vertex` from a fresh graph). -/
def gC1 : Graph String String Unit :=
  (Graph.new.put_vertex ⟨none, "a", [((), PValue.pbool true)]⟩).2

/-- A store holding one edge labelled `"rel"` (reached by a single
`put_edge` from a fresh graph). -/
def gC6 : Graph String String Unit :=
  (Graph.new.put_edge ⟨none, ⟨.vertex, 1⟩, ⟨.vertex, 2⟩, "rel", []⟩).2

/-- The bytecode `g.e(())`: a single empty-ids `Edge` source. -/
def bcC6 : Bytecode String String Unit := ⟨[], [Instruction.Edge []]⟩

/-- The edge stored in `gC6`. -/
def eC6 : Edge String String Unit :=
  ⟨some ⟨.edge, 1⟩, ⟨.vertex, 1⟩, ⟨.vertex, 2⟩, "rel", []⟩

/-! ## Claims -/

/-- C1 counterexample: the claim says `clear` empties all six
sub-databases, so that every lookup in each of them yields nothing
afterwards.  In the store `gC1` — reached by one `put_vertex` of a vertex
carrying one parameter — the parameter binding and its reverse-index entry
are still found after `clear`: the source (`heed/mod.rs:186-192`) only
clears the four vertex/edge databases. -/
theorem clear_keeps_parameters_cex :
    dbGet ((⟨Ty.vertex, 1⟩ : Id), ()) gC1.clear.parameters_db
        = some (PValue.pbool true) ∧
      dbGet ((), (⟨Ty.vertex, 1⟩ : Id)) gC1.clear.parameters_idx_db
        = some ⟨Ty.vertex, 1⟩ := by
  exact ⟨rfl, rfl⟩

/-- C1 (amended): `clear` empties the four vertex/edge sub-databases
(`vertices:v1`, `vertices_idx:v1`, `edges:v1`, `edges_idx:v1`) under the
calling write transaction and leaves the two parameter sub-databases
(`parameters:v1`, `parameters_idx:v1`) untouched. -/
theorem clear_truncates_vertex_edge_stores (g : Graph V E P) :
    g.clear.vertex_db = [] ∧ g.clear.vertex_idx_db = [] ∧
      g.clear.edge_db = [] ∧ g.clear.edge_idx_db = [] ∧
      g.clear.parameters_db = g.parameters_db ∧
      g.clear.parameters_idx_db = g.parameters_idx_db := by
  exact ⟨rfl, rfl, rfl, rfl, rfl, rfl⟩

/-- C3: the claim says `AddE` execution consumes the matching `From` and
`To` so that BOTH are removed from the remaining step sequence, and fails
with `BadRequest("Missing to")` / `BadRequest("Missing from")` when a tag
is absent.  The error behaviour holds, but the removal does not: on the
remaining steps `[From(Vertex:5), To(Vertex:6)]` the recorded removal
indices `[0, 1]` are applied one by one without adjustment, so after
`remove(0)` drops the `From`, `remove(1)` is out of range and the `To`
instruction survives in the remaining step sequence. -/
theorem pop_to_from_removal_eval :
    popToFrom [Instruction.From (V := String) (E := String) (P := Unit) ⟨.vertex, 5⟩,
        Instruction.To ⟨.vertex, 6⟩]
      = .ok (⟨.vertex, 6⟩, ⟨.vertex, 5⟩, [Instruction.To ⟨.vertex, 6⟩]) ∧
    popToFrom ([] : List (Instruction String String Unit))
      = .error (.BadRequest "Missing to") ∧
    popToFrom [Instruction.To (V := String) (E := String) (P := Unit) ⟨.vertex, 6⟩]
      = .error (.BadRequest "Missing from") := by
  exact ⟨rfl, rfl, rfl⟩

/-- C5: `put_vertex` then `get_vertex_by_id` on the returned vertex's id
yields a vertex equal to the returned one — id, label and parameters are
preserved, for any vertex (with or without an id or parameters) and any
starting store. -/
theorem put_vertex_then_get_roundtrip [DecidableEq V] [DecidableEq P]
    (g : Graph V E P) (n : Vertex V E P) :
    ∃ i, (g.put_vertex n).1.id = some i ∧
      (g.put_vertex n).2.get_vertex_by_id i = some (g.put_vertex n).1 := by
  cases hid : n.id with
  | some i =>
    refine ⟨i, ?_, ?_⟩
    · cases hdb : dbGet i g.vertex_db <;>
        simp [Graph.put_vertex, hid, hdb]
    · cases hdb : dbGet i g.vertex_db <;>
        simp [Graph.put_vertex, hid, hdb, Graph.get_vertex_by_id,
          putParams_vertex_db, dbGet_put_self]
  | none =>
    refine ⟨⟨.vertex, g.counter + 1⟩, ?_, ?_⟩
    · simp [Graph.put_vertex, hid, genId]
    · simp [Graph.put_vertex, hid, genId, Graph.get_vertex_by_id,
        putParams_vertex_db, dbGet_put_self]

/-- C6: the claim says `to_list` eagerly collects the executed stream and,
when an element fails `from_pvalue`, fails by RETURNING that error as a
value.  The collection half holds (second conjunct: with the matching end
type the stored edge is collected in order), but on a failing element the
source (`gremlin/terminator.rs:99-103`) maps the stream through
`End::from_pvalue` and then `Result::unwrap`, which PANICS instead of
returning the error: executing `g.e(())` over a store holding one edge
with end type `Vertex` panics (first conjunct). -/
theorem to_list_panics_on_bad_element :
    gC6.to_list Vertex.from_pvalue bcC6 = Outcome.panic ∧
      gC6.to_list Edge.from_pvalue bcC6 = Outcome.ok ([eC6], gC6) := by
  exact ⟨rfl, rfl⟩

/-- C7: for every `Id` (any of the three kinds, any in-range ULID —
including the `nil` and `max` sentinels), `bytes_encode` produces exactly
17 bytes, the kind-tag byte followed by the 16 big-endian ULID bytes, and
`bytes_decode` inverts it, preserving the kind tag. -/
theorem id_codec_roundtrip (i : Id) (h : i.ulid < 2 ^ 128) :
    i.bytes_encode.length = 17 ∧
      i.bytes_encode = i.ty.tag :: beBytes 16 i.ulid ∧
      (∀ b ∈ i.bytes_encode, b < 256) ∧
      Id.bytes_decode i.bytes_encode = some i := by
  have hlen : i.bytes_encode.length = 17 := by
    simp [Id.bytes_encode, beBytes_length]
  refine ⟨hlen, rfl, ?_, ?_⟩
  · intro b hb
    simp only [Id.bytes_encode, List.mem_cons] at hb
    rcases hb with hb | hb
    · have : i.ty.tag < 3 := by cases i.ty <;> simp [Ty.tag]
      omega
    · exact beBytes_lt 16 i.ulid b hb
  · rw [Id.bytes_decode, if_neg (by simp [hlen])]
    simp only [Id.bytes_encode, List.headD_cons, tyFromByte_tag, List.drop_succ_cons,
      List.drop_zero, fromBeBytes_beBytes]
    have h16 : (256 : Nat) ^ 16 = 2 ^ 128 := by norm_num
    rw [h16, Nat.mod_eq_of_lt h]

/-- Witness for C7 at the `max` sentinel of the `Parameter` kind. -/
theorem id_codec_roundtrip_witness :
    (Id.max .parameter).ulid < 2 ^ 128 ∧
      Id.bytes_decode (Id.max .parameter).bytes_encode = some (Id.max .parameter) := by
  have h : (Id.max .parameter).ulid < 2 ^ 128 := by
    simp [Id.max]
  exact ⟨h, (id_codec_roundtrip (Id.max .parameter) h).2.2.2⟩

/-- The edge stored under the `max`-sentinel id in `gC4` (the only key at
which an inclusive and an exclusive upper scan bound can differ). -/
def eC4 : Edge String String Unit :=
  ⟨some (Id.max .edge), ⟨.vertex, 1⟩, ⟨.vertex, 2⟩, "x", []⟩

/-- A store whose edge label index holds an entry at key
`("x", Id::max(Edge))` with a matching primary record. -/
def gC4 : Graph String String Unit :=
  { Graph.new with
    edge_db := [(Id.max .edge, eC4)]
    edge_idx_db := [(("x", Id.max .edge), Id.max .edge)] }

/-- Modelled from the spec (claim C4's wording, which matches the vertex
scan only): the edge label scan with BOTH bounds inclusive, from
`(label, nil)` to `(label, max)`, hydrating each yielded id from the
primary edge store. -/
def get_edges_by_label_specIncl [KeyOrd E] [DecidableEq E] (g : Graph V E P)
    (label : E) : List (Edge V E P) :=
  edgeRangeCollect g
    ((rangeScan g.edge_idx_db (label, Id.nil .edge) (label, Id.max .edge)
        true).map fun en => some en.2)

/-- C4 counterexample: the claim says both label scans use INCLUSIVE
bounds `(L, nil)` and `(L, max)`.  True for vertices (`heed/vertex.rs:77-78`
uses Rust `..=`), but `heed/edge.rs:76-77` builds the edge range with `..`,
an EXCLUSIVE upper bound: on a store holding an index entry at exactly
`("x", Id::max(Edge))`, the code yields nothing while the claimed
inclusive scan yields the edge. -/
theorem edge_label_scan_upper_bound_cex :
    gC4.get_edges_by_label "x" = [] ∧
      get_edges_by_label_specIncl gC4 "x" = [eC4] := by
  exact ⟨rfl, rfl⟩

/-- C4 (amended): `get_vertices_by_label(L)` scans the vertex label index
over the entries with `(L, nil) ≤ key ≤ (L, max)` (both bounds inclusive),
while `get_edges_by_label(L)` scans the edge label index over
`(L, nil) ≤ key < (L, max)` (upper bound EXCLUSIVE); each yields the ids
found and re-hydrates them from the corresponding primary store. -/
theorem label_scan_bounds [KeyOrd V] [DecidableEq V] [KeyOrd E] [DecidableEq E]
    (g : Graph V E P) (lv : V) (lblE : E) :
    g.get_vertices_by_label lv
        = vertexRangeCollect g
            ((g.vertex_idx_db.filter fun en =>
                labelIdLeB (lv, Id.nil .vertex) en.1 &&
                  labelIdLeB en.1 (lv, Id.max .vertex)).map
              fun en => some en.2) ∧
      g.get_edges_by_label lblE
        = edgeRangeCollect g
            ((g.edge_idx_db.filter fun en =>
                labelIdLeB (lblE, Id.nil .edge) en.1 &&
                  labelIdLtB en.1 (lblE, Id.max .edge)).map
              fun en => some en.2) := by
  constructor <;>
    simp [Graph.get_vertices_by_label, Graph.get_edges_by_label, rangeScan]

/-- Helper for C10: `VertexRange` yields exactly the hydrations of the
good prefix once a bad entry is present. -/
theorem vertexRangeCollect_stops (g : Graph V E P) (pre : List Id)
    (bad : Option Id) (rest : List (Option Id))
    (hpre : ∀ i ∈ pre, (dbGet i g.vertex_db).isSome = true)
    (hbad : ∀ i, bad = some i → dbGet i g.vertex_db = none) :
    vertexRangeCollect g (pre.map some ++ bad :: rest)
      = pre.filterMap fun i => dbGet i g.vertex_db := by
  induction pre with
  | nil =>
    cases hb : bad with
    | none => rfl
    | some i =>
      simp only [List.map_nil, List.nil_append, List.filterMap_nil]
      rw [vertexRangeCollect, hbad i hb]
  | cons hd tl ih =>
    have hh := hpre hd (List.mem_cons_self _ _)
    rcases Option.isSome_iff_exists.mp hh with ⟨v, hv⟩
    simp only [List.map_cons, List.cons_append, List.filterMap_cons, hv]
    rw [vertexRangeCollect, hv]
    rw [ih fun i hi => hpre i (List.mem_cons_of_mem _ hi)]

/-- Helper for C10, edge version. -/
theorem edgeRangeCollect_stops (g : Graph V E P) (pre : List Id)
    (bad : Option Id) (rest : List (Option Id))
    (hpre : ∀ i ∈ pre, (dbGet i g.edge_db).isSome = true)
    (hbad : ∀ i, bad = some i → dbGet i g.edge_db = none) :
    edgeRangeCollect g (pre.map some ++ bad :: rest)
      = pre.filterMap fun i => dbGet i g.edge_db := by
  induction pre with
  | nil =>
    cases hb : bad with
    | none => rfl
    | some i =>
      simp only [List.map_nil, List.nil_append, List.filterMap_nil]
      rw [edgeRangeCollect, hbad i hb]
  | cons hd tl ih =>
    have hh := hpre hd (List.mem_cons_self _ _)
    rcases Option.isSome_iff_exists.mp hh with ⟨e, he⟩
    simp only [List.map_cons, List.cons_append, List.filterMap_cons, he]
    rw [edgeRangeCollect, he]
    rw [ih fun i hi => hpre i (List.mem_cons_of_mem _ hi)]

/-- C10: the iterators behind `get_vertices_by_label` /
`get_edges_by_label` end iteration silently at the first index entry whose
bytes fail to decode (`bad = none`) or whose id has no primary record
(`bad = some i` with `dbGet i = none`): the result is exactly the
hydration of the good prefix `pre`, is a plain list (no error channel is
even available in the iterator's item type), and nothing of `rest` — valid
or not — is ever yielded. -/
theorem label_range_stops_at_first_failure (g : Graph V E P) (pre : List Id)
    (bad : Option Id) (rest : List (Option Id)) (preE : List Id)
    (badE : Option Id) (restE : List (Option Id))
    (hpre : ∀ i ∈ pre, (dbGet i g.vertex_db).isSome = true)
    (hbad : ∀ i, bad = some i → dbGet i g.vertex_db = none)
    (hpreE : ∀ i ∈ preE, (dbGet i g.edge_db).isSome = true)
    (hbadE : ∀ i, badE = some i → dbGet i g.edge_db = none) :
    vertexRangeCollect g (pre.map some ++ bad :: rest)
        = (pre.filterMap fun i => dbGet i g.vertex_db) ∧
      edgeRangeCollect g (preE.map some ++ badE :: restE)
        = preE.filterMap fun i => dbGet i g.edge_db := by
  exact ⟨vertexRangeCollect_stops g pre bad rest hpre hbad,
    edgeRangeCollect_stops g preE badE restE hpreE hbadE⟩

/-- Witness for C10: in `gC6` (one stored edge `eC6`, one stored vertex in
`gC1`), a range whose second entry is missing yields only the first
hydration even though a valid entry follows the failure. -/
theorem label_range_stops_at_first_failure_witness :
    vertexRangeCollect gC1 (([(⟨.vertex, 1⟩ : Id)].map some) ++
          some ⟨.vertex, 99⟩ :: [some ⟨.vertex, 1⟩])
        = [⟨some ⟨.vertex, 1⟩, "a", [((), PValue.pbool true)]⟩] ∧
      edgeRangeCollect gC6 (([(⟨.edge, 1⟩ : Id)].map some) ++
          (none : Option Id) :: [some ⟨.edge, 1⟩])
        = [eC6] := by
  have h := label_range_stops_at_first_failure gC1
      [⟨.vertex, 1⟩] (some ⟨.vertex, 99⟩) [some ⟨.vertex, 1⟩]
      [] none []
      (by intro i hi; rw [List.mem_singleton] at hi; subst hi; rfl)
      (by intro i hi; cases hi; rfl)
      (by intro i hi; exact absurd hi (List.not_mem_nil i))
      (by intro i hi; cases hi)
  have h2 := label_range_stops_at_first_failure gC6
      [] none [] [⟨.edge, 1⟩] none [some ⟨.edge, 1⟩]
      (by intro i hi; exact absurd hi (List.not_mem_nil i))
      (by intro i hi; cases hi)
      (by intro i hi; rw [List.mem_singleton] at hi; subst hi; rfl)
      (by intro i hi; cases hi)
  exact ⟨h.1.trans (by rfl), h2.2.trans (by rfl)⟩

/-- Source-head discriminator for C9: `Vert`, `Edge` or `AddV`. -/
def isSourceHead : Instruction V E P → Prop
  | .Vert _ => True
  | .Edge _ => True
  | .AddV _ => True
  | _ => False

/-- C9: when the head instruction is `Vert`, `Edge` or `AddV`, executing a
bytecode equals executing the single-instruction bytecode holding only the
head (for any `sources` fields): every instruction after the head
influences neither the emitted stream nor the resulting store. -/
theorem execute_ignores_tail [DecidableEq V] [DecidableEq E] [DecidableEq P]
    (g : Graph V E P) (srcs srcs2 rest : List (Instruction V E P))
    (head : Instruction V E P) (h : isSourceHead head) :
    g.execute ⟨srcs, head :: rest⟩ = g.execute ⟨srcs2, [head]⟩ := by
  cases head with
  | Vert ids => rfl
  | Edge ids => rfl
  | AddV label => rfl
  | AddE label => exact absurd h (by simp [isSourceHead])
  | Property p v => exact absurd h (by simp [isSourceHead])
  | From i => exact absurd h (by simp [isSourceHead])
  | To i => exact absurd h (by simp [isSourceHead])

/-- Witness for C9 with an `AddV` head followed by a stray `Vert` step. -/
theorem execute_ignores_tail_witness :
    (Graph.new : Graph String String Unit).execute
        ⟨[], [Instruction.AddV "x", Instruction.Vert []]⟩
      = Graph.new.execute ⟨[], [Instruction.AddV "x"]⟩ := by
  exact execute_ignores_tail Graph.new [] [] [Instruction.Vert []]
    (Instruction.AddV "x") trivial

/-- C8 (spec-modelled; `Terminator::next` is commented out in the
snapshot): on a bytecode whose executed stream is empty, the `next`
terminator returns `EmptyTraversal`; on a non-empty stream it returns the
first element converted to the end type (the conversion's own outcome). -/
theorem next_first_element_or_empty [DecidableEq V] [DecidableEq E]
    [DecidableEq P] (g : Graph V E P)
    (f : PValue V E P → Except (Error V E P) End) (bc : Bytecode V E P)
    (stream : List (PValue V E P)) (g' : Graph V E P)
    (h : g.execute bc = .ok (stream, g')) :
    (stream = [] → g.next f bc = .err .EmptyTraversal) ∧
      ∀ pv rest, stream = pv :: rest →
        (∀ e, f pv = .ok e → g.next f bc = .ok (e, g')) ∧
        ∀ er, f pv = .error er → g.next f bc = .err er := by
  refine ⟨fun hs => ?_, fun pv rest hs => ⟨fun e he => ?_, fun er her => ?_⟩⟩
  · subst hs
    simp [Graph.next, h]
  · subst hs
    simp [Graph.next, h, he]
  · subst hs
    simp [Graph.next, h, her]

/-- The vertex created by `g.addV("x")` on a fresh store. -/
def vW : Vertex String String Unit := ⟨some ⟨.vertex, 1⟩, "x", []⟩

/-- The store after `g.addV("x")` on a fresh store. -/
def gW2 : Graph String String Unit := (Graph.new.put_vertex (Vertex.new "x")).2

/-- Witness for C8: an empty traversal yields `EmptyTraversal`; an `AddV`
traversal's `next` yields its first (only) element. -/
theorem next_first_element_or_empty_witness :
    (Graph.new : Graph String String Unit).execute ⟨[], []⟩
        = .ok ([], Graph.new) ∧
      (Graph.new : Graph String String Unit).next PValue.from_pvalue ⟨[], []⟩
        = .err .EmptyTraversal ∧
      (Graph.new : Graph String String Unit).execute
          ⟨[], [Instruction.AddV "x"]⟩ = .ok ([vW.to_pvalue], gW2) ∧
      (Graph.new : Graph String String Unit).next PValue.from_pvalue
          ⟨[], [Instruction.AddV "x"]⟩ = .ok (vW.to_pvalue, gW2) := by
  refine ⟨rfl, (next_first_element_or_empty Graph.new PValue.from_pvalue
    ⟨[], []⟩ [] Graph.new rfl).1 rfl, rfl, ?_⟩
  exact ((next_first_element_or_empty Graph.new PValue.from_pvalue
    ⟨[], [Instruction.AddV "x"]⟩ [vW.to_pvalue] gW2 rfl).2 vW.to_pvalue []
    rfl).1 vW.to_pvalue rfl

/-! ## The primary-store / label-index invariant (claim C2)

`IdxInv getId getLabel db idx counter` states, for one primary store and
its label index: keys are unique on both sides, every stored record
carries its own key as id, every index entry `((l, i'), j)` satisfies
`j = i'` and points at a stored record labelled `l`, every stored record
has its `(label, id) → id` index entry, and every stored key's ULID is
bounded by the generator counter (so freshly generated ids are new). -/

def IdxInv [DecidableEq L] (getId : α → Option Id) (getLabel : α → L)
    (db : List (Id × α)) (idx : List ((L × Id) × Id)) (counter : Nat) : Prop :=
  (db.map Prod.fst).Nodup ∧ (idx.map Prod.fst).Nodup ∧
    (∀ p ∈ db, getId p.2 = some p.1) ∧
    (∀ q ∈ idx, q.1.2 = q.2 ∧ ∃ v, dbGet q.2 db = some v ∧ getLabel v = q.1.1) ∧
    (∀ p ∈ db, dbGet (getLabel p.2, p.1) idx = some p.1) ∧
    (∀ p ∈ db, p.1.ulid ≤ counter)

theorem idxInv_nil [DecidableEq L] (getId : α → Option Id) (getLabel : α → L)
    (counter : Nat) : IdxInv getId getLabel [] [] counter := by
  refine ⟨List.nodup_nil, List.nodup_nil, ?_, ?_, ?_, ?_⟩ <;> simp

theorem idxInv_mono [DecidableEq L] {getId : α → Option Id} {getLabel : α → L}
    {db : List (Id × α)} {idx : List ((L × Id) × Id)} {c c' : Nat}
    (h : IdxInv getId getLabel db idx c) (hc : c ≤ c') :
    IdxInv getId getLabel db idx c' :=
  ⟨h.1, h.2.1, h.2.2.1, h.2.2.2.1, h.2.2.2.2.1,
    fun p hp => le_trans (h.2.2.2.2.2 p hp) hc⟩

/-- Overwriting an existing key: delete the stored record's index entry,
re-put the payload and the new index entry. -/
theorem idxInv_overwrite [DecidableEq L] {getId : α → Option Id}
    {getLabel : α → L} {db : List (Id × α)} {idx : List ((L × Id) × Id)}
    {c c' : Nat} (h : IdxInv getId getLabel db idx c) (hc : c ≤ c')
    {a olda : α} {i : Id} (ha : getId a = some i)
    (hstored : dbGet i db = some olda) :
    IdxInv getId getLabel (dbPut i a db)
      (dbPut (getLabel a, i) i (dbDelete (getLabel olda, i) idx)) c' := by
  obtain ⟨hnd, hnx, hid, hsound, hfwd, hbound⟩ := h
  have hmem : (i, olda) ∈ db := dbGet_mem hstored
  have hnx2 : ((dbDelete (getLabel olda, i) idx).map Prod.fst).Nodup :=
    keys_dbDelete_nodup hnx
  refine ⟨keys_dbPut_nodup hnd, keys_dbPut_nodup hnx2, ?_, ?_, ?_, ?_⟩
  · intro p hp
    rcases mem_dbPut hnd hp with hp | hp
    · rw [hp]
      exact ha
    · exact hid p hp.2
  · intro q hq
    rcases mem_dbPut hnx2 hq with hq | hq
    · rw [hq]
      exact ⟨rfl, a, dbGet_put_self _ _ _, rfl⟩
    · have hqidx := mem_dbDelete hq.2
      obtain ⟨hq2, v, hv, hlab⟩ := hsound q hqidx
      have hne : q.2 ≠ i := by
        intro hqi
        have hvold : v = olda := by
          rw [hqi, hstored] at hv
          exact (Option.some.injEq _ _).mp hv.symm
        have : q.1 = (getLabel olda, i) := by
          obtain ⟨⟨l1, i1⟩, j1⟩ := q
          simp only at hq2 hlab hqi ⊢
          rw [← hlab, hvold, hq2, hqi]
        exact fst_ne_of_mem_dbDelete hnx hq.2 this
      refine ⟨hq2, v, ?_, hlab⟩
      rw [dbGet_put_ne _ _ _ _ hne]
      exact hv
  · intro p hp
    rcases mem_dbPut hnd hp with hp | hp
    · rw [hp]
      exact dbGet_put_self _ _ _
    · have hkey : ((getLabel p.2, p.1) : L × Id) ≠ (getLabel a, i) := by
        intro hk
        exact hp.1 (congrArg Prod.snd hk)
      have hkey2 : ((getLabel p.2, p.1) : L × Id) ≠ (getLabel olda, i) := by
        intro hk
        exact hp.1 (congrArg Prod.snd hk)
      rw [dbGet_put_ne _ _ _ _ hkey, dbGet_delete_ne _ _ _ hkey2]
      exact hfwd p hp.2
  · intro p hp
    rcases mem_dbPut hnd hp with hp | hp
    · rw [hp]
      exact le_trans (hbound (i, olda) hmem) hc
    · exact le_trans (hbound p hp.2) hc

/-- Inserting under a key that is not in the store (the freshly generated
id): put the payload and the new index entry. -/
theorem idxInv_fresh [DecidableEq L] {getId : α → Option Id}
    {getLabel : α → L} {db : List (Id × α)} {idx : List ((L × Id) × Id)}
    {c c' : Nat} (h : IdxInv getId getLabel db idx c) (hc : c ≤ c')
    {a : α} {i : Id} (ha : getId a = some i) (hfresh : dbGet i db = none)
    (hib : i.ulid ≤ c') :
    IdxInv getId getLabel (dbPut i a db) (dbPut (getLabel a, i) i idx) c' := by
  obtain ⟨hnd, hnx, hid, hsound, hfwd, hbound⟩ := h
  refine ⟨keys_dbPut_nodup hnd, keys_dbPut_nodup hnx, ?_, ?_, ?_, ?_⟩
  · intro p hp
    rcases mem_dbPut hnd hp with hp | hp
    · rw [hp]
      exact ha
    · exact hid p hp.2
  · intro q hq
    rcases mem_dbPut hnx hq with hq | hq
    · rw [hq]
      exact ⟨rfl, a, dbGet_put_self _ _ _, rfl⟩
    · obtain ⟨hq2, v, hv, hlab⟩ := hsound q hq.2
      have hne : q.2 ≠ i := by
        intro hqi
        rw [hqi, hfresh] at hv
        exact Option.noConfusion hv
      refine ⟨hq2, v, ?_, hlab⟩
      rw [dbGet_put_ne _ _ _ _ hne]
      exact hv
  · intro p hp
    rcases mem_dbPut hnd hp with hp | hp
    · rw [hp]
      exact dbGet_put_self _ _ _
    · have hkey : ((getLabel p.2, p.1) : L × Id) ≠ (getLabel a, i) := by
        intro hk
        exact hp.1 (congrArg Prod.snd hk)
      rw [dbGet_put_ne _ _ _ _ hkey]
      exact hfwd p hp.2
  · intro p hp
    rcases mem_dbPut hnd hp with hp | hp
    · rw [hp]
      exact hib
    · exact le_trans (hbound p hp.2) hc

/-- Keys whose ULID exceeds the generator counter are absent. -/
theorem dbGet_fresh_of_bound [DecidableEq L] {getId : α → Option Id}
    {getLabel : α → L} {db : List (Id × α)} {idx : List ((L × Id) × Id)}
    {c : Nat} (h : IdxInv getId getLabel db idx c) {i : Id}
    (hi : c < i.ulid) : dbGet i db = none := by
  apply dbGet_eq_none_of_not_mem
  intro hmem
  rcases List.mem_map.mp hmem with ⟨p, hp, hfp⟩
  have := h.2.2.2.2.2 p hp
  rw [hfp] at this
  omega

/-- The two-sided store invariant. -/
def StoreInv [DecidableEq V] [DecidableEq E] (g : Graph V E P) : Prop :=
  IdxInv Vertex.id Vertex.label g.vertex_db g.vertex_idx_db g.counter ∧
    IdxInv Edge.id Edge.label g.edge_db g.edge_idx_db g.counter

theorem storeInv_new [DecidableEq V] [DecidableEq E] :
    StoreInv (Graph.new : Graph V E P) :=
  ⟨idxInv_nil _ _ _, idxInv_nil _ _ _⟩

/-- Field equations of `put_vertex` when the argument carries an id that
is stored (the re-put path). -/
theorem put_vertex_fields_some [DecidableEq V] [DecidableEq P]
    {g : Graph V E P} {n : Vertex V E P} {i : Id} {olda : Vertex V E P}
    (hid : n.id = some i) (holda : dbGet i g.vertex_db = some olda) :
    (g.put_vertex n).1 = n ∧
      (g.put_vertex n).2.vertex_db = dbPut i n g.vertex_db ∧
      (g.put_vertex n).2.vertex_idx_db
        = dbPut (n.label, i) i
            (dbDelete (olda.label, olda.id.getD (Id.nil .vertex)) g.vertex_idx_db) ∧
      (g.put_vertex n).2.edge_db = g.edge_db ∧
      (g.put_vertex n).2.edge_idx_db = g.edge_idx_db ∧
      (g.put_vertex n).2.counter = g.counter := by
  refine ⟨?_, ?_, ?_, ?_, ?_, ?_⟩ <;>
    simp [Graph.put_vertex, hid, holda, putParams_vertex_db,
      putParams_vertex_idx_db, putParams_edge_db, putParams_edge_idx_db,
      putParams_counter]

/-- Field equations of `put_vertex` when the argument carries no id (the
fresh-insert path). -/
theorem put_vertex_fields_none [DecidableEq V] [DecidableEq P]
    {g : Graph V E P} {n : Vertex V E P} (hid : n.id = none) :
    (g.put_vertex n).1 = { n with id := some ⟨.vertex, g.counter + 1⟩ } ∧
      (g.put_vertex n).2.vertex_db
        = dbPut ⟨.vertex, g.counter + 1⟩
            { n with id := some ⟨.vertex, g.counter + 1⟩ } g.vertex_db ∧
      (g.put_vertex n).2.vertex_idx_db
        = dbPut (n.label, ⟨.vertex, g.counter + 1⟩) ⟨.vertex, g.counter + 1⟩
            g.vertex_idx_db ∧
      (g.put_vertex n).2.edge_db = g.edge_db ∧
      (g.put_vertex n).2.edge_idx_db = g.edge_idx_db ∧
      (g.put_vertex n).2.counter = g.counter + 1 := by
  refine ⟨?_, ?_, ?_, ?_, ?_, ?_⟩ <;>
    simp [Graph.put_vertex, hid, genId, putParams_vertex_db,
      putParams_vertex_idx_db, putParams_edge_db, putParams_edge_idx_db,
      putParams_counter]

/-- Field equations of `put_edge` when the argument carries an id that is
stored. -/
theorem put_edge_fields_some [DecidableEq E] [DecidableEq P]
    {g : Graph V E P} {e : Edge V E P} {i : Id} {olda : Edge V E P}
    (hid : e.id = some i) (holda : dbGet i g.edge_db = some olda) :
    (g.put_edge e).1 = e ∧
      (g.put_edge e).2.edge_db = dbPut i e g.edge_db ∧
      (g.put_edge e).2.edge_idx_db
        = dbPut (e.label, i) i (dbDelete (olda.label, i) g.edge_idx_db) ∧
      (g.put_edge e).2.vertex_db = g.vertex_db ∧
      (g.put_edge e).2.vertex_idx_db = g.vertex_idx_db ∧
      (g.put_edge e).2.counter = g.counter := by
  refine ⟨?_, ?_, ?_, ?_, ?_, ?_⟩ <;>
    simp [Graph.put_edge, hid, holda, putParams_vertex_db,
      putParams_vertex_idx_db, putParams_edge_db, putParams_edge_idx_db,
      putParams_counter]

/-- Field equations of `put_edge` when the argument carries no id. -/
theorem put_edge_fields_none [DecidableEq E] [DecidableEq P]
    {g : Graph V E P} {e : Edge V E P} (hid : e.id = none) :
    (g.put_edge e).1 = { e with id := some ⟨.edge, g.counter + 1⟩ } ∧
      (g.put_edge e).2.edge_db
        = dbPut ⟨.edge, g.counter + 1⟩
            { e with id := some ⟨.edge, g.counter + 1⟩ } g.edge_db ∧
      (g.put_edge e).2.edge_idx_db
        = dbPut (e.label, ⟨.edge, g.counter + 1⟩) ⟨.edge, g.counter + 1⟩
            g.edge_idx_db ∧
      (g.put_edge e).2.vertex_db = g.vertex_db ∧
      (g.put_edge e).2.vertex_idx_db = g.vertex_idx_db ∧
      (g.put_edge e).2.counter = g.counter + 1 := by
  refine ⟨?_, ?_, ?_, ?_, ?_, ?_⟩ <;>
    simp [Graph.put_edge, hid, genId, putParams_vertex_db,
      putParams_vertex_idx_db, putParams_edge_db, putParams_edge_idx_db,
      putParams_counter]

theorem storeInv_put_vertex [DecidableEq V] [DecidableEq E] [DecidableEq P]
    {g : Graph V E P} (h : StoreInv g) (n : Vertex V E P)
    (hwf : ∀ i, n.id = some i → (dbGet i g.vertex_db).isSome = true) :
    StoreInv (g.put_vertex n).2 := by
  cases hid : n.id with
  | some i =>
    rcases Option.isSome_iff_exists.mp (hwf i hid) with ⟨olda, holda⟩
    have holdid : olda.id = some i := h.1.2.2.1 (i, olda) (dbGet_mem holda)
    obtain ⟨_, hdb, hidx, hedb, heidx, hcnt⟩ := put_vertex_fields_some hid holda
    constructor
    · rw [StoreInv] at h
      rw [hdb, hidx, hcnt, holdid]
      exact idxInv_overwrite h.1 (le_refl _) hid holda
    · rw [hedb, heidx, hcnt]
      exact h.2
  | none =>
    obtain ⟨_, hdb, hidx, hedb, heidx, hcnt⟩ := put_vertex_fields_none hid
    have hfresh : dbGet (⟨.vertex, g.counter + 1⟩ : Id) g.vertex_db = none :=
      dbGet_fresh_of_bound h.1 (Nat.lt_succ_self _)
    constructor
    · rw [hdb, hidx, hcnt]
      exact idxInv_fresh h.1 (Nat.le_succ _) rfl hfresh (le_refl _)
    · rw [hedb, heidx, hcnt]
      exact idxInv_mono h.2 (Nat.le_succ _)

theorem storeInv_put_edge [DecidableEq V] [DecidableEq E] [DecidableEq P]
    {g : Graph V E P} (h : StoreInv g) (e : Edge V E P)
    (hwf : ∀ i, e.id = some i → (dbGet i g.edge_db).isSome = true) :
    StoreInv (g.put_edge e).2 := by
  cases hid : e.id with
  | some i =>
    rcases Option.isSome_iff_exists.mp (hwf i hid) with ⟨olda, holda⟩
    obtain ⟨_, hdb, hidx, hvdb, hvidx, hcnt⟩ := put_edge_fields_some hid holda
    constructor
    · rw [hvdb, hvidx, hcnt]
      exact h.1
    · rw [hdb, hidx, hcnt]
      exact idxInv_overwrite h.2 (le_refl _) hid holda
  | none =>
    obtain ⟨_, hdb, hidx, hvdb, hvidx, hcnt⟩ := put_edge_fields_none hid
    have hfresh : dbGet (⟨.edge, g.counter + 1⟩ : Id) g.edge_db = none :=
      dbGet_fresh_of_bound h.2 (Nat.lt_succ_self _)
    constructor
    · rw [hvdb, hvidx, hcnt]
      exact idxInv_mono h.1 (Nat.le_succ _)
    · rw [hdb, hidx, hcnt]
      exact idxInv_fresh h.2 (Nat.le_succ _) rfl hfresh (le_refl _)

/-- Well-formed call sequences: a put that carries an explicit id re-puts
a record stored under that id (the only way the public API produces
id-bearing arguments: ids are populated by earlier puts and records are
never deleted). -/
def opsWF [DecidableEq V] [DecidableEq E] [DecidableEq P]
    (g : Graph V E P) : List (Op V E P) → Prop
  | [] => True
  | .putV n :: rest =>
    (∀ i, n.id = some i → (dbGet i g.vertex_db).isSome = true) ∧
      opsWF (g.put_vertex n).2 rest
  | .putE e :: rest =>
    (∀ i, e.id = some i → (dbGet i g.edge_db).isSome = true) ∧
      opsWF (g.put_edge e).2 rest

theorem storeInv_applyOps [DecidableEq V] [DecidableEq E] [DecidableEq P]
    {g : Graph V E P} (ops : List (Op V E P)) (h : StoreInv g)
    (hwf : opsWF g ops) : StoreInv (applyOps g ops) := by
  induction ops generalizing g with
  | nil => exact h
  | cons op rest ih =>
    cases op with
    | putV n =>
      rw [opsWF] at hwf
      exact ih (storeInv_put_vertex h n hwf.1) hwf.2
    | putE e =>
      rw [opsWF] at hwf
      exact ih (storeInv_put_edge h e hwf.1) hwf.2

/-- From the invariant: the index entries whose id component is a stored
key form exactly the one entry `((label, id), id)` of the stored record. -/
theorem idxInv_filter_singleton [DecidableEq L] {getId : α → Option Id}
    {getLabel : α → L} {db : List (Id × α)} {idx : List ((L × Id) × Id)}
    {c : Nat} (h : IdxInv getId getLabel db idx c) {i : Id} {v : α}
    (hv : dbGet i db = some v) :
    idx.filter (fun q => decide (q.1.2 = i)) = [((getLabel v, i), i)] := by
  obtain ⟨hnd, hnx, hid, hsound, hfwd, hbound⟩ := h
  have hmem : (i, v) ∈ db := dbGet_mem hv
  apply filter_eq_singleton_of_all (hnx.of_map Prod.fst)
  · intro q hq hpq
    have hqi : q.1.2 = i := of_decide_eq_true hpq
    obtain ⟨hq2, w, hw, hlab⟩ := hsound q hq
    have hwv : w = v := by
      rw [← hq2, hqi, hv] at hw
      exact ((Option.some.injEq _ _).mp hw).symm
    obtain ⟨⟨l1, i1⟩, j1⟩ := q
    simp only at hq2 hqi hlab
    have h1 : l1 = getLabel v := by rw [← hlab, hwv]
    have h3 : j1 = i := by rw [← hq2, hqi]
    rw [h1, hqi, h3]
  · exact dbGet_mem (hfwd (i, v) hmem)
  · simp

/-- The `"tester"` → `"testers"` re-put scenario of claim C2 (the source's
`test_put_existing_vertex`), expressed as an op sequence. -/
def gScn : Graph String String Unit :=
  applyOps Graph.new
    [Op.putV (Vertex.new "tester"), Op.putV ⟨some ⟨.vertex, 1⟩, "testers", []⟩]

/-- C2: over every well-formed sequence of `put_vertex`/`put_edge` calls
from a fresh store (re-puts carry the id of a stored record, which is the
only shape the API produces), every vertex in the primary store has
exactly one label-index entry, keyed by its current `(label, id)` with the
id as value — and the same holds for edges.  In particular (last three
conjuncts), after inserting a vertex labelled `"tester"` and re-putting it
with label `"testers"`: `vertex_count` returns 1 (the cardinality assert
passes), lookup by the old label finds nothing, and lookup by the new
label finds the single vertex. -/
theorem put_label_index_unique [DecidableEq V] [DecidableEq E] [DecidableEq P]
    (ops : List (Op V E P)) (hwf : opsWF Graph.new ops) (iV iE : Id)
    (v : Vertex V E P) (e : Edge V E P)
    (hv : dbGet iV (applyOps Graph.new ops).vertex_db = some v)
    (he : dbGet iE (applyOps Graph.new ops).edge_db = some e) :
    v.id = some iV ∧
      (applyOps Graph.new ops).vertex_idx_db.filter
          (fun q => decide (q.1.2 = iV)) = [((v.label, iV), iV)] ∧
      e.id = some iE ∧
      (applyOps Graph.new ops).edge_idx_db.filter
          (fun q => decide (q.1.2 = iE)) = [((e.label, iE), iE)] ∧
      gScn.vertex_count = some 1 ∧
      gScn.get_vertex_by_label "tester" = none ∧
      gScn.get_vertex_by_label "testers"
        = some ⟨some ⟨.vertex, 1⟩, "testers", []⟩ := by
  have hinv := storeInv_applyOps ops storeInv_new hwf
  exact ⟨hinv.1.2.2.1 (iV, v) (dbGet_mem hv),
    idxInv_filter_singleton hinv.1 hv,
    hinv.2.2.2.1 (iE, e) (dbGet_mem he),
    idxInv_filter_singleton hinv.2 he,
    rfl, rfl, rfl⟩

/-- Witness for C2: a store holding one vertex and one loop edge. -/
theorem put_label_index_unique_witness :
    opsWF (Graph.new : Graph String String Unit)
        [Op.putV (Vertex.new "a"),
          Op.putE ⟨none, ⟨.vertex, 1⟩, ⟨.vertex, 1⟩, "r", []⟩] ∧
      dbGet (⟨.vertex, 1⟩ : Id)
          (applyOps (Graph.new : Graph String String Unit)
            [Op.putV (Vertex.new "a"),
              Op.putE ⟨none, ⟨.vertex, 1⟩, ⟨.vertex, 1⟩, "r", []⟩]).vertex_db
        = some ⟨some ⟨.vertex, 1⟩, "a", []⟩ ∧
      (applyOps (Graph.new : Graph String String Unit)
            [Op.putV (Vertex.new "a"),
              Op.putE ⟨none, ⟨.vertex, 1⟩, ⟨.vertex, 1⟩, "r", []⟩]).vertex_idx_db.filter
          (fun q => decide (q.1.2 = (⟨.vertex, 1⟩ : Id)))
        = [(("a", ⟨.vertex, 1⟩), ⟨.vertex, 1⟩)] ∧
      gScn.get_vertex_by_label "testers"
        = some ⟨some ⟨.vertex, 1⟩, "testers", []⟩ := by
  have hwf : opsWF (Graph.new : Graph String String Unit)
      [Op.putV (Vertex.new "a"),
        Op.putE ⟨none, ⟨.vertex, 1⟩, ⟨.vertex, 1⟩, "r", []⟩] := by
    simp only [opsWF]
    constructor
    · intro i hi; exact nomatch hi
    · constructor
      · intro i hi; exact nomatch hi
      · trivial
  have h := put_label_index_unique
      [Op.putV (Vertex.new "a"),
        Op.putE ⟨none, ⟨.vertex, 1⟩, ⟨.vertex, 1⟩, "r", []⟩] hwf
      ⟨.vertex, 1⟩ ⟨.edge, 2⟩ ⟨some ⟨.vertex, 1⟩, "a", []⟩
      ⟨some ⟨.edge, 2⟩, ⟨.vertex, 1⟩, ⟨.vertex, 1⟩, "r", []⟩ rfl rfl
  exact ⟨hwf, rfl, h.2.1, h.2.2.2.2.2.2⟩

end Gremlite







